import Mathlib

/-!
Shallow embedding of the text-segmentation core of the ob-memo-echo
repository (src/core/src/chunker.rs and src/core/src/image_context.rs).

Rust strings are modelled as `List Char` (sequences of Unicode scalars);
byte positions are recovered through `Char.utf8Size`.  Rust byte slicing
`&s[a..b]`, which panics when an index is out of bounds or not on a
character boundary, is modelled by `byteSlice : … → Option (List Char)`
returning `none` exactly on the panicking inputs; fallible functions built
on it return `Option`, with `none` standing for a panic.
-/

namespace ObMemoEcho

/-- Unicode scalar values with the White_Space property, the set used both by
Rust's char::is_whitespace (str::trim, str::trim_start, str::trim_end) and by
the regex class \s in its default Unicode mode. -/
def rustIsWhitespace (c : Char) : Bool :=
  decide ((9 ≤ c.toNat ∧ c.toNat ≤ 13) ∨ c.toNat = 32 ∨ c.toNat = 133 ∨
    c.toNat = 160 ∨ c.toNat = 5760 ∨ (8192 ≤ c.toNat ∧ c.toNat ≤ 8202) ∨
    c.toNat = 8232 ∨ c.toNat = 8233 ∨ c.toNat = 8239 ∨ c.toNat = 8287 ∨
    c.toNat = 12288)

/-- Byte length of a scalar sequence under UTF-8, Rust's str::len. -/
def byteLen (s : List Char) : Nat :=
  (s.map Char.utf8Size).sum

/-- Model of Rust str::trim_start. -/
def trimStartChars (s : List Char) : List Char :=
  s.dropWhile rustIsWhitespace

/-- Model of Rust str::trim_end. -/
def trimEndChars (s : List Char) : List Char :=
  (s.reverse.dropWhile rustIsWhitespace).reverse

/-- Model of Rust str::trim. -/
def rustTrim (s : List Char) : List Char :=
  trimEndChars (trimStartChars s)

/-- Removes a single trailing carriage return, as Rust str::lines does on
lines that were terminated by a newline. -/
def stripCr (l : List Char) : List Char :=
  if l.getLast? = some '\r' then l.dropLast else l

/-- Walk of Rust str::lines; the accumulator holds the scalars of the current
line in reverse. -/
def rustLinesAux : List Char → List Char → List (List Char)
  | [], acc => if acc = [] then [] else [acc.reverse]
  | c :: cs, acc =>
    if c = '\n' then stripCr acc.reverse :: rustLinesAux cs []
    else rustLinesAux cs (c :: acc)

/-- Model of Rust str::lines: split at newlines, dropping one trailing
carriage return from every line that was terminated by a newline; a final
line without a terminator is yielded verbatim, and an empty string yields no
lines. -/
def rustLines (s : List Char) : List (List Char) :=
  rustLinesAux s []

/-- Drops the first n bytes of a scalar sequence; `none` when n exceeds the
byte length or falls inside a multi-byte scalar. -/
def byteDrop : List Char → Nat → Option (List Char)
  | s, 0 => some s
  | [], _ + 1 => none
  | c :: cs, n + 1 =>
    if c.utf8Size ≤ n + 1 then byteDrop cs (n + 1 - c.utf8Size) else none

/-- Takes the first n bytes of a scalar sequence; `none` when n exceeds the
byte length or falls inside a multi-byte scalar. -/
def byteTake : List Char → Nat → Option (List Char)
  | _, 0 => some []
  | [], _ + 1 => none
  | c :: cs, n + 1 =>
    if c.utf8Size ≤ n + 1 then (byteTake cs (n + 1 - c.utf8Size)).map (c :: ·)
    else none

/-- Model of Rust byte-range slicing `&s[a..b]`: `none` exactly when the Rust
expression panics (a > b, b beyond the end, or an index not on a character
boundary). -/
def byteSlice (s : List Char) (a b : Nat) : Option (List Char) :=
  if a ≤ b then (byteDrop s a).bind (fun t => byteTake t (b - a)) else none

/-! ### chunker.rs -/

/-- Header record of chunker.rs. -/
structure Header where
  level : Nat
  text : List Char
  position : Nat
deriving DecidableEq

/-- Chunk record of chunker.rs. -/
structure Chunk where
  content : List Char
  header_path : List (List Char)
  start_pos : Nat
  end_pos : Nat
deriving DecidableEq

/-- Per-line heading recognition of extract_headers: strip leading
whitespace, require a leading marker character, count the marker run as the
level, and require the remainder to be nonempty after trimming. -/
def headerOfLine (line : List Char) (pos : Nat) : Option Header :=
  let t := trimStartChars line
  if t.head? = some '#' then
    let level := (t.takeWhile (fun c => c = '#')).length
    let txt := rustTrim (t.drop level)
    if txt = [] then none else some ⟨level, txt, pos⟩
  else none

/-- Loop body of extract_headers over the line list; pos is the cumulative
sum of byte length + 1 over the preceding lines, exactly as the source
computes it (single-byte terminator assumed). -/
def extractHeadersAux : List (List Char) → Nat → List Header
  | [], _ => []
  | l :: ls, pos =>
    match headerOfLine l pos with
    | some h => h :: extractHeadersAux ls (pos + byteLen l + 1)
    | none => extractHeadersAux ls (pos + byteLen l + 1)

/-- Model of extract_headers of chunker.rs. -/
def extract_headers (content : List Char) : List Header :=
  extractHeadersAux (rustLines content) 0

/-- Formatted heading label as built by split_by_headers:
"#".repeat(level) ++ " " ++ text. -/
def fmtHeader (h : Header) : List Char :=
  List.replicate h.level '#' ++ ' ' :: h.text

/-- One step of the heading-path stack of split_by_headers.  The stack is
kept top-first (the Rust Vec's last element is our head): entries with level
greater than or equal to the incoming heading's level are popped, then the
incoming heading is pushed. -/
def pathStep (st : List (Nat × List Char)) (h : Header) : List (Nat × List Char) :=
  (h.level, fmtHeader h) :: st.dropWhile (fun p => decide (h.level ≤ p.1))

/-- Heading path for index i as split_by_headers computes it: rebuild the
stack from scratch over headings 0..i and snapshot it after pushing heading
i, bottom-first. -/
def pathForIdx (headers : List Header) (i : Nat) : List (List Char) :=
  (((headers.take (i + 1)).foldl pathStep []).reverse).map Prod.snd

/-- Incremental heading-path pass following the spec's words (sections 4.2
and 9): one stack maintained across all headings, one pass, snapshotting the
stack after each push.  This is the reference against which the per-index
recomputation of split_by_headers is compared. -/
def specIncPathsAux (st : List (Nat × List Char)) : List Header → List (List (List Char))
  | [] => []
  | h :: t =>
    let st' := pathStep st h
    ((st'.reverse).map Prod.snd) :: specIncPathsAux st' t

/-- Heading paths for all headings via the single incremental pass described
by the spec. -/
def specIncPaths (headers : List Header) : List (List (List Char)) :=
  specIncPathsAux [] headers

/-- Walk of the character-level forced split of recursive_split: one pass
over the scalars, carrying the current part in reverse together with the
byte budget left in it.  A scalar that fits the remaining budget is packed; a
scalar that does not fit closes the current part and either starts a new part
or, when its own size exceeds the maximum, is emitted alone — exactly the
greedy nested loops of the source. -/
def charSplitAux (maxLen : Nat) : List Char → List Char → Nat → List (List Char)
  | [], acc, _ => if acc = [] then [] else [acc.reverse]
  | c :: cs, acc, budget =>
    if c.utf8Size ≤ budget then charSplitAux maxLen cs (c :: acc) (budget - c.utf8Size)
    else if acc = [] then [c] :: charSplitAux maxLen cs [] maxLen
    else acc.reverse :: (if c.utf8Size ≤ maxLen
      then charSplitAux maxLen cs [c] (maxLen - c.utf8Size)
      else [c] :: charSplitAux maxLen cs [] maxLen)

/-- Character-level forced split of recursive_split: greedily pack scalars
into parts of at most maxLen bytes; a scalar whose own size exceeds maxLen is
emitted alone. -/
def charSplit (maxLen : Nat) (line : List Char) : List (List Char) :=
  charSplitAux maxLen line [] maxLen

/-- Loop body of recursive_split: the state is (finished parts, pending
buffer). -/
def rsStep (maxLen : Nat) (st : List (List Char) × List Char) (line : List Char) :
    List (List Char) × List Char :=
  let lwn := line ++ ['\n']
  if byteLen st.2 + byteLen lwn > maxLen then
    let parts1 := if st.2 = [] then st.1 else st.1 ++ [trimEndChars st.2]
    if byteLen line > maxLen then (parts1 ++ charSplit maxLen line, [])
    else (parts1, lwn)
  else (st.1, st.2 ++ lwn)

/-- Model of recursive_split of chunker.rs. -/
def recursive_split (content : List Char) (maxLen : Nat) : List (List Char) :=
  if byteLen content ≤ maxLen then [content]
  else
    let st := (rustLines content).foldl (rsStep maxLen) ([], [])
    if st.2 = [] then st.1 else st.1 ++ [trimEndChars st.2]

/-- Lays recursively split parts out as chunks with cumulative byte
positions, as both callers of recursive_split do. -/
def partsToChunks (path : List (List Char)) : Nat → List (List Char) → List Chunk
  | _, [] => []
  | start, p :: ps =>
    ⟨p, path, start, start + byteLen p⟩ :: partsToChunks path (start + byteLen p) ps

/-- Position where the block of the current header ends: the position of the
next header of the remaining suffix, or end-of-text when there is none. -/
def nextEndPos (content : List Char) (hrest : List Header) : Nat :=
  match hrest.head? with
  | some h2 => h2.position
  | none => byteLen content

/-- Loop of split_by_headers; i is the index of the first header of the
remaining suffix (the third argument, always headers.drop i at call sites),
so the block's end position is the next remaining header's position or
end-of-text, and the heading path is the one for index i.  `none` models a
panic of the byte slice `&content[header.position..end_pos]`. -/
def splitByHeadersAux (content : List Char) (headers : List Header) :
    Nat → List Header → Option (List Chunk)
  | _, [] => some []
  | i, hd :: hrest =>
    match byteSlice content hd.position (nextEndPos content hrest) with
    | none => none
    | some seg =>
      match splitByHeadersAux content headers (i + 1) hrest with
      | none => none
      | some rest =>
        some ((if byteLen seg > 850 then
            partsToChunks (pathForIdx headers i) hd.position (recursive_split seg 800)
          else [⟨seg, pathForIdx headers i, hd.position, nextEndPos content hrest⟩]) ++ rest)

/-- Model of split_by_headers of chunker.rs. -/
def split_by_headers (content : List Char) (headers : List Header) :
    Option (List Chunk) :=
  splitByHeadersAux content headers 0 headers

/-- Model of chunk_markdown of chunker.rs; `none` stands for a panic. -/
def chunk_markdown (content : List Char) : Option (List Chunk) :=
  if content = [] then some []
  else
    let headers := extract_headers content
    if headers = [] then
      if byteLen content ≤ 800 then
        some [⟨content, [], 0, byteLen content⟩]
      else
        some (partsToChunks [] 0 (recursive_split content 800))
    else split_by_headers content headers

/-- Invariant of the recursive_split loop state: every finished part fits the
maximum, and the pending buffer — when nonempty — holds at most maximum + 1
bytes and ends with the newline appended to its last line. -/
def RsInv (maxLen : Nat) (st : List (List Char) × List Char) : Prop :=
  (∀ p ∈ st.1, byteLen p ≤ maxLen) ∧
  (st.2 = [] ∨ (byteLen st.2 ≤ maxLen + 1 ∧ st.2.getLast? = some '\n'))

/-- Byte-count potential of the recursive_split loop state, used to bound the
total size of the emitted parts: total bytes of the finished parts plus the
pending buffer's bytes (one when the buffer is empty). -/
def rsPot (st : List (List Char) × List Char) : Nat :=
  (st.1.map byteLen).sum + (if st.2 = [] then 1 else byteLen st.2)

/-! ### image_context.rs -/

/-- Tag distinguishing the two image-link forms of image_context.rs
(ImageSyntaxType in the source): the Obsidian embed form and the standard
Markdown inline form. -/
inductive ImageKind where
  | obsidian : ImageKind
  | markdown : ImageKind
deriving DecidableEq

/-- ImageLink record of image_context.rs; kind is the source's field that
records which of the two link forms matched. -/
structure ImageLink where
  path : List Char
  position : Nat
  context : List Char
  kind : ImageKind
deriving DecidableEq

/-- Match attempt of the Obsidian pattern at the head of the suffix.  The
pattern is a bang, two open brackets, one or more scalars other than a close
bracket (the captured path), then two close brackets; returns the capture and
the number of scalars consumed. -/
def obsMatchAt : List Char → Option (List Char × Nat)
  | '!' :: '[' :: '[' :: rest =>
    let cap := rest.takeWhile (fun c => c != ']')
    if cap = [] then none
    else match rest.drop cap.length with
      | ']' :: ']' :: _ => some (cap, 3 + cap.length + 2)
      | _ => none
  | _ => none

/-- Match attempt of the Markdown pattern at the head of the suffix: a bang,
an open bracket, any scalars other than a close bracket (the alt text), a
close bracket, an open paren, one or more scalars other than a close paren
(the captured path), then a close paren. -/
def mdMatchAt : List Char → Option (List Char × Nat)
  | '!' :: '[' :: rest =>
    let alt := rest.takeWhile (fun c => c != ']')
    (match rest.drop alt.length with
      | ']' :: '(' :: rest3 =>
        let cap := rest3.takeWhile (fun c => c != ')')
        if cap = [] then none
        else match rest3.drop cap.length with
          | ')' :: _ => some (cap, 2 + alt.length + 2 + cap.length + 1)
          | _ => none
      | _ => none)
  | _ => none

/-- Leftmost, non-overlapping scan of a whole text with a pattern matcher;
yields (capture, byte position of the match start) pairs in order, as
captures_iter of the regex crate does for these patterns. -/
def scanRe (matchAt : List Char → Option (List Char × Nat)) :
    List Char → Nat → List (List Char × Nat)
  | [], _ => []
  | c :: cs, pos =>
    match matchAt (c :: cs) with
    | some (cap, n) =>
      (cap, pos) :: scanRe matchAt (cs.drop (n - 1))
        (pos + c.utf8Size + byteLen (cs.take (n - 1)))
    | none => scanRe matchAt cs (pos + c.utf8Size)
termination_by s => s.length
decreasing_by
  · exact Nat.lt_succ_of_le (by simp)
  · simp

/-- Links found by the first (Obsidian) pass of extract_image_links. -/
def obsLinks (content : List Char) : List ImageLink :=
  (scanRe obsMatchAt content 0).map (fun pc => ⟨pc.1, pc.2, [], ImageKind.obsidian⟩)

/-- Links found by the second (Markdown) pass of extract_image_links. -/
def mdLinks (content : List Char) : List ImageLink :=
  (scanRe mdMatchAt content 0).map (fun pc => ⟨pc.1, pc.2, [], ImageKind.markdown⟩)

/-- Model of extract_image_links of image_context.rs: both passes
concatenated, then stably sorted ascending by position (Rust sort_by_key). -/
def extract_image_links (content : List Char) : List ImageLink :=
  (obsLinks content ++ mdLinks content).mergeSort
    (fun a b => decide (a.position ≤ b.position))

/-- Loop of extract_context that locates the scalar index whose cumulative
byte count first reaches the target byte offset; the index stays 0 when the
loop runs off the end without the condition ever firing. -/
def findCharPosAux : List Char → Nat → Nat → Nat → Nat
  | [], _, _, _ => 0
  | c :: cs, p, i, bc =>
    if p ≤ bc then i else findCharPosAux cs p (i + 1) (bc + c.utf8Size)

/-- Model of extract_context of image_context.rs. -/
def extract_context (content : List Char) (imagePos contextChars : Nat) : List Char :=
  let chars := content
  let charPos := findCharPosAux chars imagePos 0 0
  let startChar := if charPos > contextChars then charPos - contextChars else 0
  let endChar := min (charPos + contextChars) chars.length
  (chars.drop startChar).take (endChar - startChar)

/-- Backtracking search of the heading regex after the marker run: the
whitespace class must take i scalars (1 ≤ i ≤ w, tried greedily from w
downward) and the dot class must then take at least one scalar; returns
(i, length of the maximal non-newline run after i). -/
def tryBacktrack (rest : List Char) : Nat → Option (Nat × Nat)
  | 0 => none
  | i + 1 =>
    let m := ((rest.drop (i + 1)).takeWhile (fun c => c != '\n')).length
    if 1 ≤ m then some (i + 1, m) else tryBacktrack rest i

/-- Match attempt of the heading regex of image_context.rs — one to six
marker characters, then at least one whitespace scalar, then at least one
non-newline scalar, up to a line end — at the given suffix, which the caller
guarantees starts at a line start.  Returns (marker count, match byte
length).  The whitespace class may cross newlines, exactly as \s does in the
regex. -/
def headerMatchAt (s : List Char) : Option (Nat × Nat) :=
  let run := (s.takeWhile (fun c => c = '#')).length
  if run = 0 ∨ 6 < run then none
  else
    let rest := s.drop run
    let w := (rest.takeWhile rustIsWhitespace).length
    match tryBacktrack rest w with
    | none => none
    | some (i, m) => some (run, byteLen (s.take (run + i + m)))

/-- Byte offsets of all line starts of a text (offset 0 and the offset just
past every newline), each paired with the suffix starting there. -/
def lineStartsAux : List Char → Nat → List (Nat × List Char)
  | [], _ => []
  | c :: cs, pos =>
    if c = '\n' then (pos + 1, cs) :: lineStartsAux cs (pos + 1)
    else lineStartsAux cs (pos + c.utf8Size)

/-- Candidate match-start positions for the multi-line heading regex: the
start of the haystack and the position after every newline. -/
def lineStartsWithSuffix (s : List Char) : List (Nat × List Char) :=
  (0, s) :: lineStartsAux s 0

/-- Successive non-overlapping matches of the heading regex over the
candidate line starts; resume is the byte offset where the scan may continue
after the previous match.  Yields (start, marker count, end) byte triples. -/
def regexMatchesAux : List (Nat × List Char) → Nat → List (Nat × Nat × Nat)
  | [], _ => []
  | (p, suf) :: rest, resume =>
    if p < resume then regexMatchesAux rest resume
    else match headerMatchAt suf with
      | some (n, endRel) => (p, n, p + endRel) :: regexMatchesAux rest (p + endRel)
      | none => regexMatchesAux rest resume

/-- All matches of the multi-line heading regex of image_context.rs over a
text, in order, as captures_iter yields them. -/
def regexMatches (s : List Char) : List (Nat × Nat × Nat) :=
  regexMatchesAux (lineStartsWithSuffix s) 0

/-- Model of extract_section_context of image_context.rs; `none` stands for a
panic of a byte slice. -/
def extract_section_context (content : List Char) (imagePos : Nat) :
    Option (List Char) :=
  match byteSlice content 0 imagePos with
  | none => none
  | some before =>
    match (regexMatches before).getLast? with
    | none => some content
    | some (hs, _, _) =>
      match byteSlice content hs (byteLen content) with
      | none => none
      | some afterHeader =>
        let currentLevel := match (regexMatches afterHeader).head? with
          | some (_, n, _) => n
          | none => 1
        match byteSlice content (hs + 1) (byteLen content) with
        | none => none
        | some rest1 =>
          let sectionEnd := match (regexMatches rest1).find?
              (fun t => decide (t.2.1 ≤ currentLevel)) with
            | some (st, _, _) => hs + 1 + st
            | none => byteLen content
          byteSlice content hs sectionEnd

/-! ### Helper lemmas -/

theorem byteLen_nil : byteLen [] = 0 := rfl

theorem byteLen_cons (c : Char) (s : List Char) :
    byteLen (c :: s) = c.utf8Size + byteLen s := by
  simp [byteLen]

theorem byteLen_append (a b : List Char) :
    byteLen (a ++ b) = byteLen a + byteLen b := by
  simp [byteLen]

theorem byteLen_reverse (s : List Char) : byteLen s.reverse = byteLen s := by
  simp [byteLen, List.sum_reverse]

theorem byteLen_eq_zero {s : List Char} : byteLen s = 0 ↔ s = [] := by
  cases s with
  | nil => simp [byteLen]
  | cons c t =>
    have := c.utf8Size_pos
    simp only [byteLen_cons]
    constructor
    · intro h; omega
    · intro h; cases h

theorem byteLen_flatten : ∀ ps : List (List Char),
    byteLen ps.flatten = (ps.map byteLen).sum := by
  intro ps
  induction ps with
  | nil => rfl
  | cons p t ih => simp [byteLen_append, ih]

theorem byteLen_dropWhile_le (p : Char → Bool) (s : List Char) :
    byteLen (s.dropWhile p) ≤ byteLen s := by
  induction s with
  | nil => simp
  | cons c t ih =>
    rw [List.dropWhile_cons]
    by_cases h : p c = true
    · rw [if_pos h, byteLen_cons]
      omega
    · rw [if_neg h]

theorem byteLen_trimEndChars_le (s : List Char) :
    byteLen (trimEndChars s) ≤ byteLen s := by
  calc byteLen (trimEndChars s) = byteLen (s.reverse.dropWhile rustIsWhitespace) :=
        byteLen_reverse _
    _ ≤ byteLen s.reverse := byteLen_dropWhile_le _ _
    _ = byteLen s := byteLen_reverse _

theorem byteLen_trimEndChars_lt {s : List Char}
    (h : s.getLast? = some '\n') : byteLen (trimEndChars s) + 1 ≤ byteLen s := by
  have hrev : s.reverse.head? = some '\n' := by
    rw [List.head?_reverse]; exact h
  cases hr : s.reverse with
  | nil => rw [hr] at hrev; cases hrev
  | cons a r =>
    rw [hr] at hrev
    simp only [List.head?_cons, Option.some.injEq] at hrev
    subst hrev
    have hbs : byteLen s = 1 + byteLen r := by
      have h0 : byteLen s.reverse = byteLen ('\n' :: r) := by rw [hr]
      rw [byteLen_reverse, byteLen_cons] at h0
      have h1 : '\n'.utf8Size = 1 := by decide
      omega
    have hdw : ('\n' :: r).dropWhile rustIsWhitespace = r.dropWhile rustIsWhitespace := by
      rw [List.dropWhile_cons, if_pos (by decide)]
    calc byteLen (trimEndChars s) + 1
        = byteLen (s.reverse.dropWhile rustIsWhitespace) + 1 := by
          rw [trimEndChars, byteLen_reverse]
      _ = byteLen (r.dropWhile rustIsWhitespace) + 1 := by rw [hr, hdw]
      _ ≤ byteLen r + 1 := by have := byteLen_dropWhile_le rustIsWhitespace r; omega
      _ = byteLen s := by omega

theorem byteLen_dropLast_le (s : List Char) : byteLen s.dropLast ≤ byteLen s := by
  induction s with
  | nil => simp
  | cons c t ih =>
    cases t with
    | nil => simp [List.dropLast, byteLen]
    | cons d u =>
      have hdl : (c :: d :: u).dropLast = c :: (d :: u).dropLast := rfl
      rw [hdl, byteLen_cons, byteLen_cons]
      omega

theorem byteLen_stripCr_le (s : List Char) : byteLen (stripCr s) ≤ byteLen s := by
  rw [stripCr]
  by_cases h : s.getLast? = some '\r'
  · rw [if_pos h]
    exact byteLen_dropLast_le s
  · rw [if_neg h]

theorem byteDrop_spec : ∀ (s : List Char) (n : Nat) (t : List Char),
    byteDrop s n = some t → n ≤ byteLen s ∧ byteLen t = byteLen s - n := by
  intro s
  induction s with
  | nil =>
    intro n t h
    cases n with
    | zero =>
      simp only [byteDrop, Option.some.injEq] at h
      subst h; simp [byteLen]
    | succ m => simp [byteDrop] at h
  | cons c cs ih =>
    intro n t h
    cases n with
    | zero =>
      simp only [byteDrop, Option.some.injEq] at h
      subst h; simp [byteLen]
    | succ m =>
      rw [byteDrop] at h
      by_cases hc : c.utf8Size ≤ m + 1
      · rw [if_pos hc] at h
        have := ih (m + 1 - c.utf8Size) t h
        rw [byteLen_cons]
        omega
      · rw [if_neg hc] at h; cases h

theorem byteTake_spec : ∀ (s : List Char) (n : Nat) (t : List Char),
    byteTake s n = some t → n ≤ byteLen s ∧ byteLen t = n := by
  intro s
  induction s with
  | nil =>
    intro n t h
    cases n with
    | zero =>
      simp only [byteTake, Option.some.injEq] at h
      subst h; simp [byteLen]
    | succ m => simp [byteTake] at h
  | cons c cs ih =>
    intro n t h
    cases n with
    | zero =>
      simp only [byteTake, Option.some.injEq] at h
      subst h; simp [byteLen]
    | succ m =>
      rw [byteTake] at h
      by_cases hc : c.utf8Size ≤ m + 1
      · rw [if_pos hc] at h
        cases ht : byteTake cs (m + 1 - c.utf8Size) with
        | none => rw [ht] at h; cases h
        | some u =>
          rw [ht] at h
          have h3 : c :: u = t := Option.some.inj h
          subst h3
          have := ih (m + 1 - c.utf8Size) u ht
          rw [byteLen_cons]
          constructor
          · omega
          · rw [byteLen_cons]; omega
      · rw [if_neg hc] at h; cases h

theorem byteSlice_spec {s : List Char} {a b : Nat} {t : List Char}
    (h : byteSlice s a b = some t) :
    a ≤ b ∧ b ≤ byteLen s ∧ byteLen t = b - a := by
  rw [byteSlice] at h
  by_cases hab : a ≤ b
  · rw [if_pos hab] at h
    cases hd : byteDrop s a with
    | none => rw [hd] at h; cases h
    | some u =>
      rw [hd] at h
      rw [show (some u).bind (fun t => byteTake t (b - a)) = byteTake u (b - a) from rfl] at h
      have h1 := byteDrop_spec s a u hd
      have h2 := byteTake_spec u (b - a) t h
      exact ⟨hab, by omega, by omega⟩
  · rw [if_neg hab] at h; cases h

theorem takeWhile_length_pos {p : Char → Bool} {l : List Char}
    (h : 1 ≤ (l.takeWhile p).length) : ∃ c t, l = c :: t ∧ p c = true := by
  cases l with
  | nil => simp [List.takeWhile] at h
  | cons c t =>
    refine ⟨c, t, rfl, ?_⟩
    by_contra hc
    rw [List.takeWhile_cons, if_neg (by simpa using hc)] at h
    simp at h

theorem trimStartChars_of_head_not_ws {l : List Char} {c : Char}
    (hh : l.head? = some c) (hws : rustIsWhitespace c = false) :
    trimStartChars l = l := by
  cases l with
  | nil => rfl
  | cons a t =>
    simp only [List.head?_cons, Option.some.injEq] at hh
    subst hh
    simp [trimStartChars, List.dropWhile_cons, hws]

theorem mem_dropWhile_of_not {p : Char → Bool} {c : Char} :
    ∀ {l : List Char}, c ∈ l → p c = false → c ∈ l.dropWhile p := by
  intro l
  induction l with
  | nil => intro h; simp at h
  | cons a t ih =>
    intro hmem hpc
    by_cases hpa : p a = true
    · rw [List.dropWhile_cons, if_pos hpa]
      rcases List.mem_cons.mp hmem with rfl | ht
      · rw [hpa] at hpc; cases hpc
      · exact ih ht hpc
    · rw [List.dropWhile_cons, if_neg hpa]
      exact hmem

theorem trimEndChars_eq_nil_all_ws {l : List Char}
    (h : trimEndChars l = []) : ∀ c ∈ l, rustIsWhitespace c = true := by
  intro c hc
  have h2 : l.reverse.dropWhile rustIsWhitespace = [] := by
    have := congrArg List.reverse h
    simpa [trimEndChars] using this
  have := List.dropWhile_eq_nil_iff.mp h2
  exact this c (List.mem_reverse.mpr hc)

theorem rustTrim_ne_nil_of_exists {l : List Char}
    (h : ∃ c ∈ l, rustIsWhitespace c = false) : rustTrim l ≠ [] := by
  rcases h with ⟨c, hmem, hws⟩
  intro hnil
  have hc : c ∈ trimStartChars l := mem_dropWhile_of_not hmem hws
  have := trimEndChars_eq_nil_all_ws (l := trimStartChars l) hnil c hc
  rw [this] at hws
  cases hws

/-! ### Claim C1 -/

/-- Claim C1 (code_bug): for the input "# A\n\nx\n\n## B\n\ny\n\n## C\n\nz\n"
at byte offset 14, which lies inside the line "y", extract_section_context is
claimed to return a span containing "## B" and "y" and excluding "## C" and
"z"; the code instead returns the one-character span "#", because the forward
scan over content[header_start + 1 ..] sees the tail "# B" of the current
"## B" heading as a level-1 heading at offset 0 and ends the section there. -/
theorem c1_section_context_returns_hash_only :
    extract_section_context ("# A\n\nx\n\n## B\n\ny\n\n## C\n\nz\n".toList) 14 =
      some ['#'] := by decide

/-! ### Claim C2 -/

/-- Claim C2 (code_bug): chunk_markdown is claimed total and panic-free for
every input, including CRLF terminators combined with multi-byte scalars.  On
"a\r\nb\r\né\n# H\n" the header position drifts two bytes short (one per CRLF
line) and lands inside the two-byte scalar é, so the slice
&content[position..] panics; the model returns `none` there. -/
theorem c2_chunk_markdown_panics_on_crlf :
    chunk_markdown ("a\r\nb\r\né\n# H\n".toList) = none := by decide

/-! ### Claim C6 -/

/-- Claim C6 (confirmed): chunk_markdown on "# A\n\nfoo\n\n## B\n\nbar\n"
returns exactly two chunks, the first with header path ["# A"] spanning from
"# A" up to but not including "## B", the second with header path
["# A", "## B"] spanning from "## B" to the end. -/
theorem c6_end_to_end :
    chunk_markdown ("# A\n\nfoo\n\n## B\n\nbar\n".toList) =
      some [⟨"# A\n\nfoo\n\n".toList, ["# A".toList], 0, 10⟩,
            ⟨"## B\n\nbar\n".toList, ["# A".toList, "## B".toList], 10, 20⟩] := by
  decide

/-! ### Claim C10 -/

theorem findCharPosAux_eq_zero : ∀ (cs : List Char) (p i bc : Nat),
    bc + byteLen cs ≤ p → findCharPosAux cs p i bc = 0 := by
  intro cs
  induction cs with
  | nil => intro p i bc _; rfl
  | cons c t ih =>
    intro p i bc hle
    have hsz := c.utf8Size_pos
    simp only [byteLen, List.map_cons, List.sum_cons] at hle
    have hlt : bc < p := by omega
    rw [findCharPosAux, if_neg (by omega)]
    apply ih
    simp only [byteLen]
    omega

/-- Claim C10 (confirmed): for nonempty text and any byte offset at or past
the end of the text, extract_context anchors the window at scalar index 0 and
returns the first min(window, length) scalars of the text. -/
theorem c10_context_past_end_anchors_at_start (t : List Char) (w p : Nat)
    (_ht : t ≠ []) (hp : byteLen t ≤ p) :
    extract_context t p w = t.take (min w t.length) := by
  have h0 : findCharPosAux t p 0 0 = 0 :=
    findCharPosAux_eq_zero t p 0 0 (by omega)
  simp [extract_context, h0]

/-- Witness for claim C10 at the text "ab", offset 2, window 5. -/
theorem c10_witness :
    extract_context ("ab".toList) 2 5 = ("ab".toList).take (min 5 ("ab".toList).length) :=
  c10_context_past_end_anchors_at_start ("ab".toList) 5 2 (by decide) (by decide)

/-! ### Claim C7 -/

theorem specIncPathsAux_eq : ∀ (L : List Header) (st : List (Nat × List Char)),
    specIncPathsAux st L = (List.range L.length).map
      (fun i => (((L.take (i + 1)).foldl pathStep st).reverse).map Prod.snd) := by
  intro L
  induction L with
  | nil => intro st; rfl
  | cons h t ih =>
    intro st
    simp only [specIncPathsAux, List.length_cons]
    rw [List.range_succ_eq_map]
    simp only [List.map_cons, List.map_map]
    congr 1
    rw [ih (pathStep st h)]
    apply List.map_congr_left
    intro i _
    simp [List.take_succ_cons]

/-- Claim C7 (confirmed): the heading path that split_by_headers computes for
each index by rebuilding the level-tagged stack from scratch over headings
0..i equals the path produced by the single incremental pass that maintains
one stack across all headings and snapshots it after each push. -/
theorem c7_path_recomputation_eq_incremental (headers : List Header) :
    specIncPaths headers =
      (List.range headers.length).map (fun i => pathForIdx headers i) := by
  unfold specIncPaths pathForIdx
  exact specIncPathsAux_eq headers []

/-! ### Claim C3 -/

/-- Counterexample for claim C3: on the line "#foo" the header scanner of
extract_headers recognizes a heading (level 1, label "foo"), while the
heading regex of extract_section_context does not match, because it requires
whitespace between the markers and the label; so the two heading-detection
rules are not equivalent. -/
theorem c3_counterexample :
    ¬ (((headerMatchAt ("#foo".toList)).isSome = true) ↔
       ((headerOfLine ("#foo".toList) 0).isSome = true)) := by decide

/-- Claim C3 as amended: every line matched by the section-context heading
regex whose part after the marker run contains a non-whitespace scalar is
also recognized as a heading by the header scanner of extract_headers; the
converse fails (see the counterexample), since the scanner additionally
accepts leading whitespace, more than six markers, and no whitespace after
the markers. -/
theorem c3_amended_regex_match_implies_scanner (line : List Char) (nm : Nat × Nat)
    (hm : headerMatchAt line = some nm)
    (hlab : ∃ c ∈ line.drop ((line.takeWhile (fun c => c = '#')).length),
      rustIsWhitespace c = false) :
    (headerOfLine line 0).isSome = true := by
  have hrun : ¬ ((line.takeWhile (fun c => decide (c = '#'))).length = 0 ∨
      6 < (line.takeWhile (fun c => decide (c = '#'))).length) := by
    intro hcond
    rw [headerMatchAt] at hm
    simp only [if_pos hcond] at hm
    cases hm
  have hrun1 : 1 ≤ (line.takeWhile (fun c => decide (c = '#'))).length := by omega
  obtain ⟨c, t, hline, hpc⟩ := takeWhile_length_pos hrun1
  have hc : c = '#' := by simpa using hpc
  subst hc
  have hhead : line.head? = some '#' := by rw [hline]; rfl
  have htrim : trimStartChars line = line :=
    trimStartChars_of_head_not_ws hhead (by decide)
  rw [headerOfLine]
  simp only [htrim, hhead, if_pos rfl]
  have htxt : rustTrim (line.drop ((line.takeWhile (fun c => decide (c = '#'))).length)) ≠ [] :=
    rustTrim_ne_nil_of_exists hlab
  simp only [ne_eq] at htxt
  rw [if_neg htxt]
  rfl

/-- Witness for the amended claim C3 at the line "# x". -/
theorem c3_amended_witness : (headerOfLine ("# x".toList) 0).isSome = true :=
  c3_amended_regex_match_implies_scanner ("# x".toList) (1, 3) (by decide)
    ⟨'x', by decide, by decide⟩

/-! ### Claim C5 -/

theorem rustLinesAux_no_nl : ∀ (s acc : List Char), '\n' ∉ s →
    rustLinesAux s acc =
      if acc.reverse ++ s = [] then [] else [acc.reverse ++ s] := by
  intro s
  induction s with
  | nil =>
    intro acc _
    by_cases h : acc = []
    · subst h; rfl
    · rw [rustLinesAux, if_neg h, List.append_nil,
        if_neg (by simpa using h)]
  | cons c cs ih =>
    intro acc hnl
    have hc : ¬ c = '\n' := by
      intro h; exact hnl (h ▸ List.mem_cons_self c cs)
    rw [rustLinesAux, if_neg hc, ih (c :: acc) (fun h => hnl (List.mem_cons_of_mem c h))]
    simp

theorem charSplitAux_flatten (maxLen : Nat) : ∀ (s acc : List Char) (budget : Nat),
    (charSplitAux maxLen s acc budget).flatten = acc.reverse ++ s := by
  intro s
  induction s with
  | nil =>
    intro acc budget
    by_cases h : acc = []
    · subst h; rfl
    · rw [charSplitAux, if_neg h]
      simp
  | cons c cs ih =>
    intro acc budget
    rw [charSplitAux]
    by_cases h1 : c.utf8Size ≤ budget
    · rw [if_pos h1, ih (c :: acc) (budget - c.utf8Size)]
      simp
    · rw [if_neg h1]
      by_cases h2 : acc = []
      · rw [if_pos h2]
        subst h2
        simp [ih [] maxLen]
      · rw [if_neg h2]
        by_cases h3 : c.utf8Size ≤ maxLen
        · rw [if_pos h3]
          simp [ih [c] (maxLen - c.utf8Size)]
        · rw [if_neg h3]
          simp [ih [] maxLen]

theorem charSplit_flatten (maxLen : Nat) (line : List Char) :
    (charSplit maxLen line).flatten = line :=
  charSplitAux_flatten maxLen line [] maxLen

/-- Claim C5 (confirmed): for any text with no line terminators, the parts of
recursive_split(s, 800) concatenated in order reproduce s exactly.  Parts are
sequences of whole scalars of s (the embedding is at scalar granularity and
the concatenation equation makes them a partition of s), so no Unicode scalar
is ever split across two parts. -/
theorem c5_recursive_split_concat (s : List Char) (hnl : '\n' ∉ s) :
    (recursive_split s 800).flatten = s := by
  rw [recursive_split]
  by_cases hle : byteLen s ≤ 800
  · rw [if_pos hle]
    simp
  · rw [if_neg hle]
    have hne : s ≠ [] := by
      intro h
      subst h
      exact hle (by simp [byteLen])
    have hlines : rustLines s = [s] := by
      rw [rustLines, rustLinesAux_no_nl s [] hnl]
      simp [hne]
    rw [hlines]
    simp only [List.foldl_cons, List.foldl_nil]
    have hstep : rsStep 800 ([], []) s = (charSplit 800 s, []) := by
      rw [rsStep]
      have hlen : byteLen ([] : List Char) + byteLen (s ++ ['\n']) > 800 := by
        rw [byteLen_append, byteLen_nil]
        have : byteLen ['\n'] = 1 := by decide
        omega
      rw [if_pos hlen]
      simp only [if_pos rfl]
      rw [if_pos (by omega : byteLen s > 800)]
      simp
    rw [hstep]
    simp [charSplit_flatten]

/-- Witness for claim C5 at the newline-free text "abc". -/
theorem c5_witness : (recursive_split ("abc".toList) 800).flatten = "abc".toList :=
  c5_recursive_split_concat ("abc".toList) (by decide)

/-! ### Claim C8 -/

/-- Claim C8 (confirmed): extract_image_links returns the matches of both
pattern passes — the Obsidian pass and the Markdown pass — in one sequence
sorted ascending by position, as a permutation of the two passes'
concatenation, so no match is removed even when matched regions overlap. -/
theorem c8_image_links_sorted_no_dedup (content : List Char) :
    (extract_image_links content).Perm (obsLinks content ++ mdLinks content) ∧
    List.Sorted (fun a b => a.position ≤ b.position) (extract_image_links content) := by
  constructor
  · exact List.mergeSort_perm _ _
  · have hp := @List.sorted_mergeSort ImageLink
      (fun a b : ImageLink => decide (a.position ≤ b.position))
      (fun a b c hab hbc => by
        simp only [decide_eq_true_eq] at hab hbc ⊢
        omega)
      (fun a b => by
        simp only [Bool.or_eq_true, decide_eq_true_eq]
        omega)
      (obsLinks content ++ mdLinks content)
    refine List.Pairwise.imp ?_ hp
    intro a b hab
    simpa using hab

/-! ### Claim C4 -/

theorem getLast?_append_singleton (l : List Char) (a : Char) :
    (l ++ [a]).getLast? = some a := by
  simp

theorem charSplitAux_bound (maxLen : Nat) (h4 : 4 ≤ maxLen) :
    ∀ (s acc : List Char) (budget : Nat), byteLen acc + budget ≤ maxLen →
    ∀ p ∈ charSplitAux maxLen s acc budget, byteLen p ≤ maxLen := by
  intro s
  induction s with
  | nil =>
    intro acc budget hb p hp
    rw [charSplitAux] at hp
    by_cases h : acc = []
    · rw [if_pos h] at hp; simp at hp
    · rw [if_neg h] at hp
      simp only [List.mem_singleton] at hp
      subst hp
      rw [byteLen_reverse]
      omega
  | cons c cs ih =>
    intro acc budget hb p hp
    rw [charSplitAux] at hp
    by_cases h1 : c.utf8Size ≤ budget
    · rw [if_pos h1] at hp
      exact ih (c :: acc) (budget - c.utf8Size) (by rw [byteLen_cons]; omega) p hp
    · rw [if_neg h1] at hp
      by_cases h2 : acc = []
      · rw [if_pos h2] at hp
        rcases List.mem_cons.mp hp with rfl | hp2
        · have := c.utf8Size_le_four
          rw [byteLen_cons, byteLen_nil]
          omega
        · exact ih [] maxLen (by rw [byteLen_nil]; omega) p hp2
      · rw [if_neg h2] at hp
        rcases List.mem_cons.mp hp with rfl | hp2
        · rw [byteLen_reverse]; omega
        · by_cases h3 : c.utf8Size ≤ maxLen
          · rw [if_pos h3] at hp2
            exact ih [c] (maxLen - c.utf8Size)
              (by rw [byteLen_cons, byteLen_nil]; omega) p hp2
          · rw [if_neg h3] at hp2
            rcases List.mem_cons.mp hp2 with rfl | hp3
            · have := c.utf8Size_le_four
              rw [byteLen_cons, byteLen_nil]
              omega
            · exact ih [] maxLen (by rw [byteLen_nil]; omega) p hp3

theorem charSplit_bound (maxLen : Nat) (h4 : 4 ≤ maxLen) (line : List Char) :
    ∀ p ∈ charSplit maxLen line, byteLen p ≤ maxLen :=
  charSplitAux_bound maxLen h4 line [] maxLen (by rw [byteLen_nil]; omega)

theorem charSplit_sum (maxLen : Nat) (line : List Char) :
    ((charSplit maxLen line).map byteLen).sum = byteLen line := by
  rw [← byteLen_flatten, charSplit_flatten]

theorem rsStep_inv (maxLen : Nat) (h4 : 4 ≤ maxLen)
    (st : List (List Char) × List Char) (l : List Char) (hinv : RsInv maxLen st) :
    RsInv maxLen (rsStep maxLen st l) := by
  obtain ⟨hparts, hcur⟩ := hinv
  rw [rsStep]
  have hlwn : byteLen (l ++ ['\n']) = byteLen l + 1 := by
    rw [byteLen_append]
    have h1 : byteLen ['\n'] = 1 := by decide
    omega
  by_cases hov : byteLen st.2 + byteLen (l ++ ['\n']) > maxLen
  · rw [if_pos hov]
    have hparts1 : ∀ p ∈ (if st.2 = [] then st.1 else st.1 ++ [trimEndChars st.2]),
        byteLen p ≤ maxLen := by
      by_cases hc : st.2 = []
      · rw [if_pos hc]; exact hparts
      · rw [if_neg hc]
        intro p hp
        rcases List.mem_append.mp hp with hp1 | hp2
        · exact hparts p hp1
        · simp only [List.mem_singleton] at hp2
          subst hp2
          rcases hcur with h | ⟨hb, hl⟩
          · exact absurd h hc
          · have := byteLen_trimEndChars_lt hl
            omega
    by_cases hlong : byteLen l > maxLen
    · rw [if_pos hlong]
      refine ⟨?_, Or.inl rfl⟩
      intro p hp
      rcases List.mem_append.mp hp with hp1 | hp2
      · exact hparts1 p hp1
      · exact charSplit_bound maxLen h4 l p hp2
    · rw [if_neg hlong]
      refine ⟨hparts1, Or.inr ⟨?_, getLast?_append_singleton l '\n'⟩⟩
      show byteLen (l ++ ['\n']) ≤ maxLen + 1
      omega
  · rw [if_neg hov]
    refine ⟨hparts, Or.inr ⟨?_, ?_⟩⟩
    · show byteLen (st.2 ++ (l ++ ['\n'])) ≤ maxLen + 1
      rw [byteLen_append]
      omega
    · show (st.2 ++ (l ++ ['\n'])).getLast? = some '\n'
      rw [← List.append_assoc]
      exact getLast?_append_singleton _ '\n'

theorem foldl_rsStep_inv (maxLen : Nat) (h4 : 4 ≤ maxLen) :
    ∀ (L : List (List Char)) (st), RsInv maxLen st →
    RsInv maxLen (L.foldl (rsStep maxLen) st) := by
  intro L
  induction L with
  | nil => intro st h; exact h
  | cons l t ih =>
    intro st h
    exact ih (rsStep maxLen st l) (rsStep_inv maxLen h4 st l h)

theorem recursive_split_bound (maxLen : Nat) (h4 : 4 ≤ maxLen) (s : List Char) :
    ∀ p ∈ recursive_split s maxLen, byteLen p ≤ maxLen := by
  intro p hp
  rw [recursive_split] at hp
  by_cases hle : byteLen s ≤ maxLen
  · rw [if_pos hle] at hp
    simp only [List.mem_singleton] at hp
    subst hp
    exact hle
  · rw [if_neg hle] at hp
    obtain ⟨hparts, hcur⟩ := foldl_rsStep_inv maxLen h4 (rustLines s) ([], [])
      ⟨by simp, Or.inl rfl⟩
    by_cases hc : ((rustLines s).foldl (rsStep maxLen) ([], [])).2 = []
    · rw [if_pos hc] at hp
      exact hparts p hp
    · rw [if_neg hc] at hp
      rcases List.mem_append.mp hp with hp1 | hp2
      · exact hparts p hp1
      · simp only [List.mem_singleton] at hp2
        subst hp2
        rcases hcur with h | ⟨hb, hl⟩
        · exact absurd h hc
        · have := byteLen_trimEndChars_lt hl
          omega

theorem partsToChunks_content (path : List (List Char)) :
    ∀ (ps : List (List Char)) (start : Nat) (c : Chunk),
    c ∈ partsToChunks path start ps → c.content ∈ ps := by
  intro ps
  induction ps with
  | nil => intro start c hc; simp [partsToChunks] at hc
  | cons p t ih =>
    intro start c hc
    rw [partsToChunks] at hc
    rcases List.mem_cons.mp hc with rfl | h2
    · exact List.mem_cons_self _ _
    · exact List.mem_cons_of_mem _ (ih _ c h2)

theorem splitByHeadersAux_content_le (content : List Char) (headers : List Header) :
    ∀ (hs : List Header) (i : Nat) (cs : List Chunk),
    splitByHeadersAux content headers i hs = some cs →
    ∀ c ∈ cs, byteLen c.content ≤ 850 := by
  intro hs
  induction hs with
  | nil =>
    intro i cs h c hc
    rw [splitByHeadersAux] at h
    have h' := Option.some.inj h
    subst h'
    simp at hc
  | cons hd hrest ih =>
    intro i cs h c hc
    rw [splitByHeadersAux] at h
    cases hsl : byteSlice content hd.position (nextEndPos content hrest) with
    | none => rw [hsl] at h; cases h
    | some seg =>
      rw [hsl] at h
      cases hrec : splitByHeadersAux content headers (i + 1) hrest with
      | none => rw [hrec] at h; cases h
      | some rest =>
        rw [hrec] at h
        have h' := Option.some.inj h
        subst h'
        rcases List.mem_append.mp hc with h1 | h2
        · by_cases hseg : byteLen seg > 850
          · rw [if_pos hseg] at h1
            have hcont := partsToChunks_content _ _ _ _ h1
            have := recursive_split_bound 800 (by omega) seg c.content hcont
            omega
          · rw [if_neg hseg] at h1
            simp only [List.mem_singleton] at h1
            subst h1
            show byteLen seg ≤ 850
            omega
        · exact ih (i + 1) rest hrec c h2

/-- Claim C4 (confirmed): every chunk of chunk_markdown has content of at
most 850 bytes — an un-split header block is emitted only when it fits 850
bytes — and every part produced by recursive subdivision at the 800-byte
target, used both for header blocks over 850 bytes and for header-free
documents over 800 bytes, is at most 800 bytes. -/
theorem c4_chunk_length_bounds :
    (∀ (content : List Char) (chunks : List Chunk),
      chunk_markdown content = some chunks →
      ∀ c ∈ chunks, byteLen c.content ≤ 850) ∧
    (∀ (s : List Char), ∀ p ∈ recursive_split s 800, byteLen p ≤ 800) := by
  constructor
  · intro content chunks h c hc
    rw [chunk_markdown] at h
    by_cases hemp : content = []
    · rw [if_pos hemp] at h
      have h' := Option.some.inj h
      subst h'
      simp at hc
    · rw [if_neg hemp] at h
      by_cases hh : extract_headers content = []
      · rw [if_pos hh] at h
        by_cases hlen : byteLen content ≤ 800
        · rw [if_pos hlen] at h
          have h' := Option.some.inj h
          subst h'
          simp only [List.mem_singleton] at hc
          subst hc
          show byteLen content ≤ 850
          omega
        · rw [if_neg hlen] at h
          have h' := Option.some.inj h
          subst h'
          have hcont := partsToChunks_content _ _ _ _ hc
          have := recursive_split_bound 800 (by omega) content c.content hcont
          omega
      · rw [if_neg hh, split_by_headers] at h
        exact splitByHeadersAux_content_le content (extract_headers content)
          (extract_headers content) 0 chunks h c hc
  · intro s p hp
    exact recursive_split_bound 800 (by omega) s p hp

/-- Witness for claim C4 at the document "# A\n" (whose single chunk has
content "# A\n") and at the text "abc" (a part of its own recursive split). -/
theorem c4_witness :
    byteLen ("# A\n".toList) ≤ 850 ∧ byteLen ("abc".toList) ≤ 800 := by
  constructor
  · exact c4_chunk_length_bounds.1 ("# A\n".toList)
      [⟨"# A\n".toList, ["# A".toList], 0, 4⟩] (by decide)
      ⟨"# A\n".toList, ["# A".toList], 0, 4⟩ (by decide)
  · exact c4_chunk_length_bounds.2 ("abc".toList) ("abc".toList) (by decide)

/-! ### Claim C9 -/

theorem rsPot_mk_nil (ps : List (List Char)) :
    rsPot (ps, ([] : List Char)) = (ps.map byteLen).sum + 1 := by
  simp [rsPot]

theorem rsPot_mk (ps : List (List Char)) (c : List Char) (h : c ≠ []) :
    rsPot (ps, c) = (ps.map byteLen).sum + byteLen c := by
  simp [rsPot, h]

theorem sum_append_parts (a b : List (List Char)) :
    ((a ++ b).map byteLen).sum = (a.map byteLen).sum + (b.map byteLen).sum := by
  simp

theorem rsStep_pot (maxLen : Nat) (st : List (List Char) × List Char) (l : List Char)
    (hcur : st.2 = [] ∨ (byteLen st.2 ≤ maxLen + 1 ∧ st.2.getLast? = some '\n')) :
    rsPot (rsStep maxLen st l) ≤ rsPot st + byteLen l + 1 := by
  have hlwn : byteLen (l ++ ['\n']) = byteLen l + 1 := by
    rw [byteLen_append]
    have h1 : byteLen ['\n'] = 1 := by decide
    omega
  have htrim : st.2 ≠ [] → byteLen (trimEndChars st.2) + 1 ≤ byteLen st.2 := by
    intro hne
    rcases hcur with h | ⟨_, h⟩
    · exact absurd h hne
    · exact byteLen_trimEndChars_lt h
  rw [rsStep]
  by_cases hov : byteLen st.2 + byteLen (l ++ ['\n']) > maxLen
  · rw [if_pos hov]
    by_cases hlong : byteLen l > maxLen
    · rw [if_pos hlong]
      rw [rsPot_mk_nil, sum_append_parts, charSplit_sum, rsPot]
      by_cases hc : st.2 = []
      · rw [if_pos hc, if_pos hc]
        omega
      · rw [if_neg hc, if_neg hc, sum_append_parts]
        have := htrim hc
        simp only [List.map_cons, List.map_nil, List.sum_cons, List.sum_nil]
        omega
    · rw [if_neg hlong]
      rw [rsPot_mk _ _ (by simp), hlwn, rsPot]
      by_cases hc : st.2 = []
      · rw [if_pos hc, if_pos hc]
        omega
      · rw [if_neg hc, if_neg hc, sum_append_parts]
        have := htrim hc
        simp only [List.map_cons, List.map_nil, List.sum_cons, List.sum_nil]
        omega
  · rw [if_neg hov]
    rw [rsPot_mk _ _ (by simp), byteLen_append, hlwn, rsPot]
    by_cases hc : st.2 = []
    · rw [if_pos hc, hc, byteLen_nil]
      omega
    · rw [if_neg hc]
      omega

theorem rsStep_pot_init (maxLen : Nat) (l : List Char) :
    rsPot (rsStep maxLen ([], []) l) ≤ byteLen l + 1 := by
  have hlwn : byteLen (l ++ ['\n']) = byteLen l + 1 := by
    rw [byteLen_append]
    have h1 : byteLen ['\n'] = 1 := by decide
    omega
  rw [rsStep]
  by_cases hov : byteLen ([] : List Char) + byteLen (l ++ ['\n']) > maxLen
  · rw [if_pos hov]
    by_cases hlong : byteLen l > maxLen
    · rw [if_pos hlong]
      simp [rsPot, charSplit_sum]
    · rw [if_neg hlong]
      simp [rsPot, hlwn]
  · rw [if_neg hov]
    simp [rsPot, hlwn]

theorem foldl_rsStep_pot (maxLen : Nat) (h4 : 4 ≤ maxLen) :
    ∀ (L : List (List Char)) (st), RsInv maxLen st →
    rsPot (L.foldl (rsStep maxLen) st) ≤
      rsPot st + (L.map (fun l => byteLen l + 1)).sum := by
  intro L
  induction L with
  | nil => intro st _; simp
  | cons l t ih =>
    intro st h
    obtain ⟨h1, h2⟩ := h
    have hstep := rsStep_pot maxLen st l h2
    have hrest := ih (rsStep maxLen st l) (rsStep_inv maxLen h4 st l ⟨h1, h2⟩)
    simp only [List.foldl_cons, List.map_cons, List.sum_cons]
    omega

theorem rustLinesAux_sum : ∀ (s acc : List Char),
    ((rustLinesAux s acc).map (fun l => byteLen l + 1)).sum ≤
      byteLen acc + byteLen s + 1 := by
  intro s
  induction s with
  | nil =>
    intro acc
    rw [rustLinesAux]
    by_cases h : acc = []
    · rw [if_pos h]
      simp
    · rw [if_neg h]
      simp [byteLen_reverse, byteLen_nil]
  | cons c cs ih =>
    intro acc
    rw [rustLinesAux]
    by_cases hc : c = '\n'
    · rw [if_pos hc]
      simp only [List.map_cons, List.sum_cons]
      have h1 := ih []
      rw [byteLen_nil] at h1
      have h2 : byteLen (stripCr acc.reverse) ≤ byteLen acc := by
        have := byteLen_stripCr_le acc.reverse
        rw [byteLen_reverse] at this
        exact this
      rw [byteLen_cons]
      have h3 : c.utf8Size = 1 := by rw [hc]; decide
      omega
    · rw [if_neg hc]
      have h1 := ih (c :: acc)
      rw [byteLen_cons] at h1
      rw [byteLen_cons]
      omega

theorem rustLinesAux_ne_nil : ∀ (s acc : List Char),
    ¬ (s = [] ∧ acc = []) → rustLinesAux s acc ≠ [] := by
  intro s
  induction s with
  | nil =>
    intro acc h
    rw [rustLinesAux]
    have hacc : ¬ acc = [] := fun ha => h ⟨rfl, ha⟩
    rw [if_neg hacc]
    simp
  | cons c cs ih =>
    intro acc _
    rw [rustLinesAux]
    by_cases hc : c = '\n'
    · rw [if_pos hc]
      simp
    · rw [if_neg hc]
      exact ih (c :: acc) (fun hh => List.cons_ne_nil c acc hh.2)

theorem recursive_split_sum (maxLen : Nat) (h4 : 4 ≤ maxLen) (s : List Char) :
    ((recursive_split s maxLen).map byteLen).sum ≤ byteLen s := by
  rw [recursive_split]
  by_cases hle : byteLen s ≤ maxLen
  · rw [if_pos hle]
    simp
  · rw [if_neg hle]
    have hne : s ≠ [] := by
      intro h
      subst h
      exact hle (by rw [byteLen_nil]; omega)
    obtain ⟨hparts, hcur⟩ := foldl_rsStep_inv maxLen h4 (rustLines s) ([], [])
      ⟨by simp, Or.inl rfl⟩
    have hsum : ((rustLines s).map (fun l => byteLen l + 1)).sum ≤
        byteLen ([] : List Char) + byteLen s + 1 := rustLinesAux_sum s []
    rw [byteLen_nil] at hsum
    obtain ⟨l0, rlt, hlines⟩ : ∃ l0 rlt, rustLines s = l0 :: rlt := by
      cases hx : rustLines s with
      | nil => exact absurd hx (rustLinesAux_ne_nil s [] (fun h => hne h.1))
      | cons a b => exact ⟨a, b, rfl⟩
    have hfold : (rustLines s).foldl (rsStep maxLen) ([], []) =
        rlt.foldl (rsStep maxLen) (rsStep maxLen ([], []) l0) := by
      rw [hlines]
      rfl
    have hinit := rsStep_pot_init maxLen l0
    have hinv0 : RsInv maxLen (rsStep maxLen ([], []) l0) :=
      rsStep_inv maxLen h4 ([], []) l0 ⟨by simp, Or.inl rfl⟩
    have hpot := foldl_rsStep_pot maxLen h4 rlt (rsStep maxLen ([], []) l0) hinv0
    rw [hlines] at hsum
    simp only [List.map_cons, List.sum_cons] at hsum
    have hPotTotal : rsPot ((rustLines s).foldl (rsStep maxLen) ([], [])) ≤
        byteLen s + 1 := by
      rw [hfold]
      omega
    by_cases hc : ((rustLines s).foldl (rsStep maxLen) ([], [])).2 = []
    · rw [if_pos hc]
      rw [rsPot, if_pos hc] at hPotTotal
      omega
    · rw [if_neg hc]
      rw [rsPot, if_neg hc] at hPotTotal
      rcases hcur with h | ⟨hb, hl⟩
      · exact absurd h hc
      · have htr := byteLen_trimEndChars_lt hl
        rw [sum_append_parts]
        simp only [List.map_cons, List.map_nil, List.sum_cons, List.sum_nil]
        omega

theorem partsToChunks_bounds (path : List (List Char)) :
    ∀ (ps : List (List Char)) (start : Nat),
    (∀ c ∈ partsToChunks path start ps,
      start ≤ c.start_pos ∧ c.start_pos ≤ c.end_pos ∧
      c.end_pos ≤ start + (ps.map byteLen).sum) ∧
    List.Chain' (fun a b => a.end_pos ≤ b.start_pos) (partsToChunks path start ps) := by
  intro ps
  induction ps with
  | nil =>
    intro start
    constructor
    · intro c hc
      simp [partsToChunks] at hc
    · simp [partsToChunks]
  | cons p t ih =>
    intro start
    rw [partsToChunks]
    obtain ⟨ihb, ihc⟩ := ih (start + byteLen p)
    constructor
    · intro c hc
      rcases List.mem_cons.mp hc with rfl | h2
      · refine ⟨le_refl _, Nat.le_add_right _ _, ?_⟩
        show start + byteLen p ≤ start + ((p :: t).map byteLen).sum
        simp only [List.map_cons, List.sum_cons]
        omega
      · obtain ⟨hb1, hb2, hb3⟩ := ihb c h2
        refine ⟨by omega, hb2, ?_⟩
        simp only [List.map_cons, List.sum_cons]
        omega
    · rw [List.chain'_cons']
      refine ⟨?_, ihc⟩
      intro y hy
      have hmem := List.mem_of_mem_head? hy
      have hb := (ihb y hmem).1
      show start + byteLen p ≤ y.start_pos
      exact hb

theorem splitByHeadersAux_ordered (content : List Char) (headers : List Header) :
    ∀ (hs : List Header) (i : Nat) (cs : List Chunk),
    splitByHeadersAux content headers i hs = some cs →
    (∀ c ∈ cs, nextEndPos content hs ≤ c.start_pos ∧ c.start_pos ≤ c.end_pos ∧
      c.end_pos ≤ byteLen content) ∧
    List.Chain' (fun a b => a.end_pos ≤ b.start_pos) cs := by
  intro hs
  induction hs with
  | nil =>
    intro i cs h
    rw [splitByHeadersAux] at h
    have h' := Option.some.inj h
    subst h'
    constructor
    · intro c hc
      simp at hc
    · simp
  | cons hd hrest ih =>
    intro i cs h
    rw [splitByHeadersAux] at h
    cases hsl : byteSlice content hd.position (nextEndPos content hrest) with
    | none => rw [hsl] at h; cases h
    | some seg =>
      rw [hsl] at h
      cases hrec : splitByHeadersAux content headers (i + 1) hrest with
      | none => rw [hrec] at h; cases h
      | some rest =>
        rw [hrec] at h
        have h' := Option.some.inj h
        subst h'
        obtain ⟨hsl1, hsl2, hsl3⟩ := byteSlice_spec hsl
        obtain ⟨ihb, ihc⟩ := ih (i + 1) rest hrec
        have hrun : ∀ c ∈ (if byteLen seg > 850 then
              partsToChunks (pathForIdx headers i) hd.position (recursive_split seg 800)
            else [⟨seg, pathForIdx headers i, hd.position, nextEndPos content hrest⟩]),
            hd.position ≤ c.start_pos ∧ c.start_pos ≤ c.end_pos ∧
            c.end_pos ≤ nextEndPos content hrest := by
          by_cases hseg : byteLen seg > 850
          · rw [if_pos hseg]
            intro c hc
            obtain ⟨hb1, hb2, hb3⟩ := (partsToChunks_bounds _ _ _).1 c hc
            refine ⟨hb1, hb2, ?_⟩
            have hsum := recursive_split_sum 800 (by omega) seg
            omega
          · rw [if_neg hseg]
            intro c hc
            simp only [List.mem_singleton] at hc
            subst hc
            exact ⟨le_refl _, hsl1, le_refl _⟩
        have hrunchain : List.Chain' (fun a b => a.end_pos ≤ b.start_pos)
            (if byteLen seg > 850 then
              partsToChunks (pathForIdx headers i) hd.position (recursive_split seg 800)
            else [⟨seg, pathForIdx headers i, hd.position, nextEndPos content hrest⟩]) := by
          by_cases hseg : byteLen seg > 850
          · rw [if_pos hseg]
            exact (partsToChunks_bounds _ _ _).2
          · rw [if_neg hseg]
            simp
        constructor
        · intro c hc
          rcases List.mem_append.mp hc with h1 | h2
          · obtain ⟨hb1, hb2, hb3⟩ := hrun c h1
            exact ⟨hb1, hb2, by omega⟩
          · obtain ⟨hb1, hb2, hb3⟩ := ihb c h2
            refine ⟨?_, hb2, hb3⟩
            show hd.position ≤ c.start_pos
            omega
        · refine List.Chain'.append hrunchain ihc ?_
          intro x hx y hy
          have hxm := List.mem_of_mem_getLast? hx
          have hym := List.mem_of_mem_head? hy
          have hx3 := (hrun x hxm).2.2
          have hy1 := (ihb y hym).1
          omega

/-- Claim C9 (confirmed): for every input on which chunk_markdown does not
panic, the returned chunks are in document order and non-overlapping: every
chunk satisfies start_pos ≤ end_pos ≤ byte length of the input, and each
chunk's end_pos is at most the next chunk's start_pos. -/
theorem c9_chunks_ordered (content : List Char) (chunks : List Chunk)
    (h : chunk_markdown content = some chunks) :
    (∀ c ∈ chunks, c.start_pos ≤ c.end_pos ∧ c.end_pos ≤ byteLen content) ∧
    List.Chain' (fun a b => a.end_pos ≤ b.start_pos) chunks := by
  rw [chunk_markdown] at h
  by_cases hemp : content = []
  · rw [if_pos hemp] at h
    have h' := Option.some.inj h
    subst h'
    constructor
    · intro c hc; simp at hc
    · simp
  · rw [if_neg hemp] at h
    by_cases hh : extract_headers content = []
    · rw [if_pos hh] at h
      by_cases hlen : byteLen content ≤ 800
      · rw [if_pos hlen] at h
        have h' := Option.some.inj h
        subst h'
        constructor
        · intro c hc
          simp only [List.mem_singleton] at hc
          subst hc
          exact ⟨Nat.zero_le _, le_refl _⟩
        · simp
      · rw [if_neg hlen] at h
        have h' := Option.some.inj h
        subst h'
        obtain ⟨hb, hc⟩ := partsToChunks_bounds [] (recursive_split content 800) 0
        constructor
        · intro c hcm
          obtain ⟨h1, h2, h3⟩ := hb c hcm
          refine ⟨h2, ?_⟩
          have hsum := recursive_split_sum 800 (by omega) content
          omega
        · exact hc
    · rw [if_neg hh, split_by_headers] at h
      obtain ⟨hb, hc⟩ := splitByHeadersAux_ordered content (extract_headers content)
        (extract_headers content) 0 chunks h
      exact ⟨fun c hcm => ⟨(hb c hcm).2.1, (hb c hcm).2.2⟩, hc⟩

/-- Witness for claim C9 at the document "# A\n", whose single chunk spans
bytes 0 to 4. -/
theorem c9_witness :
    (⟨"# A\n".toList, ["# A".toList], 0, 4⟩ : Chunk).start_pos ≤
      (⟨"# A\n".toList, ["# A".toList], 0, 4⟩ : Chunk).end_pos ∧
    (⟨"# A\n".toList, ["# A".toList], 0, 4⟩ : Chunk).end_pos ≤
      byteLen ("# A\n".toList) :=
  (c9_chunks_ordered ("# A\n".toList)
    [⟨"# A\n".toList, ["# A".toList], 0, 4⟩] (by decide)).1
    ⟨"# A\n".toList, ["# A".toList], 0, 4⟩ (by decide)

end ObMemoEcho
